import Mathlib

/-!
Shallow embedding of the NEAR price-oracle contract (`src/src/lib.rs`).

The contract state `PriceOracle` holds an owner account, a map from source
identifier to its latest `PriceReport`, a `last_update` timestamp and a
`min_sources` quorum threshold.  The Rust `HashMap<String, PriceReport>` is
embedded as an association list with replace-on-insert semantics (iteration
order of the Rust map is unspecified, so any order refines it); `u128` and
`u64` values are embedded as `Nat` with explicit width checks where the
sources overflow-check, and `AccountId` as `String`.  Fallible entry points
(the Rust `assert!`/`assert_eq!` panics, which abort the call and roll the
state back) return `Except OracleErr`; `step` applies an operation with
those rollback semantics.
-/

namespace PriceOracleModel

/-- `2 ^ 128`, one past the largest `u128` value. -/
def U128_MOD : Nat := 2 ^ 128

/-- Price data from a single source (struct `PriceReport` in `lib.rs`). -/
structure PriceReport where
  source : String
  price_usd : Nat
  timestamp : Nat
  reporter : String
  deriving Repr, DecidableEq

/-- Main oracle state (struct `PriceOracle` in `lib.rs`).  `prices` embeds the
Rust `HashMap<String, PriceReport>` as an association list. -/
structure PriceOracle where
  owner : String
  prices : List (String × PriceReport)
  last_update : Nat
  min_sources : Nat
  deriving Repr, DecidableEq

/-- The panics the contract's entry points can raise. -/
inductive OracleErr where
  | unauthorized
  | insufficientSources (required actual : Nat)
  | divisionByZero
  | overflow
  deriving Repr, DecidableEq

/-- `Default::default()`: owner is the creating account, empty map,
`last_update = 0`, `min_sources = 3`. -/
def defaultOracle (creator : String) : PriceOracle :=
  { owner := creator, prices := [], last_update := 0, min_sources := 3 }

/-- `HashMap::insert`: replace the entry for `source` if present, otherwise
add a new entry. -/
def insertReport (prices : List (String × PriceReport)) (source : String)
    (r : PriceReport) : List (String × PriceReport) :=
  if prices.any (fun kv => kv.1 = source) then
    prices.map (fun kv => if kv.1 = source then (source, r) else kv)
  else
    prices ++ [(source, r)]

/-- `HashMap::get`: the report currently stored for `source`, if any. -/
def lookupReport (prices : List (String × PriceReport)) (source : String) :
    Option PriceReport :=
  (prices.find? (fun kv => kv.1 = source)).map Prod.snd

/-- `init(&mut self, min_sources: u8)`: asserts the caller is the owner, then
overwrites `min_sources`. -/
def init (st : PriceOracle) (caller : String) (min_sources : Nat) :
    Except OracleErr PriceOracle :=
  if caller = st.owner then .ok { st with min_sources := min_sources }
  else .error .unauthorized

/-- `report_price(&mut self, source: String, price_usd: u128)`: computes
`timestamp = block_timestamp / 1_000_000` (the literal constant in the code),
builds a report stamped with the caller, inserts it keyed by `source`, and
sets `last_update` to the new timestamp.  Never fails. -/
def report_price (st : PriceOracle) (caller : String) (block_timestamp : Nat)
    (source : String) (price_usd : Nat) : PriceOracle :=
  let timestamp := block_timestamp / 1000000
  let report : PriceReport :=
    { source := source, price_usd := price_usd, timestamp := timestamp,
      reporter := caller }
  { st with prices := insertReport st.prices source report,
            last_update := timestamp }

/-- Modelled from the spec: the build profile (Cargo.toml) deciding whether
`u128` addition overflow panics or wraps in `sum()` is not among the
repository's source files; the spec's overflow policy says overflow "must
fail fast rather than silently wrap", so the summation is embedded as checked
128-bit addition that aborts the call as soon as a running total would
exceed `u128::MAX`. -/
def checkedAdd (acc : Option Nat) (x : Nat) : Option Nat :=
  match acc with
  | none => none
  | some s => if s + x < U128_MOD then some (s + x) else none

def checkedSum (l : List Nat) : Option Nat :=
  l.foldl checkedAdd (some 0)

/-- The list of stored `price_usd` values (`self.prices.values().map(|p| p.price_usd)`). -/
def priceValues (st : PriceOracle) : List Nat :=
  st.prices.map (fun kv => kv.2.price_usd)

/-- The mathematical (unbounded) sum of all stored prices. -/
def sumPrices (st : PriceOracle) : Nat := (priceValues st).sum

/-- `get_price(&self) -> u128`: asserts `prices.len() >= min_sources as usize`
(panicking with the required and actual counts), sums the stored prices, and
returns `total / count`.  Rust integer division by zero panics, embedded as
the `divisionByZero` error. -/
def get_price (st : PriceOracle) : Except OracleErr Nat :=
  if st.prices.length < st.min_sources then
    .error (.insufficientSources st.min_sources st.prices.length)
  else
    match checkedSum (priceValues st) with
    | none => .error .overflow
    | some total =>
        if st.prices.length = 0 then .error .divisionByZero
        else .ok (total / st.prices.length)

/-- `get_price_details(&self) -> Vec<PriceReport>`: every stored report. -/
def get_price_details (st : PriceOracle) : List PriceReport :=
  st.prices.map Prod.snd

/-- `get_source_count(&self) -> u8`: `self.prices.len() as u8`; the Rust
`usize -> u8` cast keeps the low 8 bits. -/
def get_source_count (st : PriceOracle) : Nat :=
  st.prices.length % 256

/-- `is_valid(&self) -> bool`: `self.prices.len() >= self.min_sources as usize`. -/
def is_valid (st : PriceOracle) : Bool :=
  decide (st.min_sources ≤ st.prices.length)

/-- `get_last_update(&self) -> u64`. -/
def get_last_update (st : PriceOracle) : Nat := st.last_update

/-- `get_min_sources(&self) -> u8`. -/
def get_min_sources (st : PriceOracle) : Nat := st.min_sources

/-- `set_min_sources(&mut self, min_sources: u8)`: owner-only overwrite. -/
def set_min_sources (st : PriceOracle) (caller : String) (min_sources : Nat) :
    Except OracleErr PriceOracle :=
  if caller = st.owner then .ok { st with min_sources := min_sources }
  else .error .unauthorized

/-- `clear_prices(&mut self)`: owner-only; empties the map and resets
`last_update` to 0. -/
def clear_prices (st : PriceOracle) (caller : String) :
    Except OracleErr PriceOracle :=
  if caller = st.owner then .ok { st with prices := [], last_update := 0 }
  else .error .unauthorized

/-- One invocation of a mutating entry point, with the host-supplied caller
identity and (for reports) the host nanosecond clock. -/
inductive Op where
  | opInit (caller : String) (min_sources : Nat)
  | opReport (caller : String) (block_timestamp : Nat) (source : String)
      (price_usd : Nat)
  | opSetMin (caller : String) (min_sources : Nat)
  | opClear (caller : String)
  deriving Repr, DecidableEq

/-- Host semantics of one call: a panicking call rolls the state back
unchanged, a successful call commits its new state. -/
def step (st : PriceOracle) : Op → PriceOracle
  | .opInit c v =>
      match init st c v with
      | .ok st2 => st2
      | .error _ => st
  | .opReport c ts s p => report_price st c ts s p
  | .opSetMin c v =>
      match set_min_sources st c v with
      | .ok st2 => st2
      | .error _ => st
  | .opClear c =>
      match clear_prices st c with
      | .ok st2 => st2
      | .error _ => st

/-- Run a sequence of calls from a starting state. -/
def exec (st : PriceOracle) (ops : List Op) : PriceOracle :=
  ops.foldl step st

/-- The arguments of one `report_price` call. -/
structure ReportCall where
  caller : String
  block_timestamp : Nat
  source : String
  price_usd : Nat
  deriving Repr, DecidableEq

/-- Run a sequence of `report_price` calls from a starting state. -/
def runReports (st : PriceOracle) (calls : List ReportCall) : PriceOracle :=
  calls.foldl
    (fun s c => report_price s c.caller c.block_timestamp c.source c.price_usd)
    st

/-- The map keys: one per stored entry. -/
def keys (st : PriceOracle) : List String :=
  st.prices.map Prod.fst

/-- Well-formedness of the embedded map: at most one entry per source key
(the keys are nodup, as for any map), and each stored report's `source`
field is its key. -/
def Wf (st : PriceOracle) : Prop :=
  (st.prices.map Prod.fst).Nodup ∧ ∀ kv ∈ st.prices, kv.2.source = kv.1

deriving instance DecidableEq for Except

/-! ### Helper lemmas about the embedded operations -/

theorem foldl_checkedAdd_none (l : List Nat) : l.foldl checkedAdd none = none := by
  induction l with
  | nil => rfl
  | cons x t ih =>
    rw [List.foldl_cons, show checkedAdd none x = none from rfl]
    exact ih

theorem foldl_checkedAdd_some (l : List Nat) :
    ∀ s : Nat, s < U128_MOD →
      l.foldl checkedAdd (some s) =
        if s + l.sum < U128_MOD then some (s + l.sum) else none := by
  induction l with
  | nil =>
    intro s hs
    simp [hs]
  | cons x t ih =>
    intro s hs
    by_cases h : s + x < U128_MOD
    · rw [List.foldl_cons, show checkedAdd (some s) x = some (s + x) by
        simp [checkedAdd, h]]
      rw [ih (s + x) h, List.sum_cons]
      have harith : s + x + t.sum = s + (x + t.sum) := by omega
      rw [harith]
    · rw [List.foldl_cons, show checkedAdd (some s) x = none by simp [checkedAdd, h]]
      rw [foldl_checkedAdd_none, List.sum_cons]
      have : ¬ s + (x + t.sum) < U128_MOD := by omega
      simp [this]

theorem checkedSum_eq (l : List Nat) :
    checkedSum l = if l.sum < U128_MOD then some l.sum else none := by
  have h0 : (0 : Nat) < U128_MOD := by norm_num [U128_MOD]
  simpa [checkedSum] using foldl_checkedAdd_some l 0 h0

/-- Closed-form description of `get_price`, with the checked sum replaced by the
mathematical sum and an explicit overflow test. -/
theorem get_price_eq (st : PriceOracle) :
    get_price st =
      if st.prices.length < st.min_sources then
        .error (.insufficientSources st.min_sources st.prices.length)
      else if U128_MOD ≤ sumPrices st then .error .overflow
      else if st.prices.length = 0 then .error .divisionByZero
      else .ok (sumPrices st / st.prices.length) := by
  unfold get_price sumPrices
  rw [checkedSum_eq]
  by_cases h1 : st.prices.length < st.min_sources
  · simp [h1]
  · by_cases h2 : (priceValues st).sum < U128_MOD
    · simp [h1, h2, Nat.not_le.mpr h2]
    · simp [h1, h2, Nat.not_lt.mp h2]

theorem any_key_eq (prices : List (String × PriceReport)) (source : String) :
    prices.any (fun kv => kv.1 = source) = true ↔ source ∈ prices.map Prod.fst := by
  simp [List.any_eq_true, List.mem_map]

theorem insertReport_keys_mem (prices : List (String × PriceReport))
    (source : String) (r : PriceReport) (h : source ∈ prices.map Prod.fst) :
    (insertReport prices source r).map Prod.fst = prices.map Prod.fst := by
  unfold insertReport
  rw [if_pos ((any_key_eq prices source).mpr h), List.map_map]
  refine List.map_congr_left ?_
  intro kv _
  by_cases hk : kv.1 = source
  · simp [hk]
  · simp [hk]

theorem insertReport_keys_not_mem (prices : List (String × PriceReport))
    (source : String) (r : PriceReport) (h : source ∉ prices.map Prod.fst) :
    (insertReport prices source r).map Prod.fst = prices.map Prod.fst ++ [source] := by
  unfold insertReport
  rw [if_neg (fun hc => h ((any_key_eq prices source).mp hc))]
  simp

theorem find?_map_replace (l : List (String × PriceReport)) (source : String)
    (r : PriceReport) (h : source ∈ l.map Prod.fst) :
    (l.map (fun kv => if kv.1 = source then (source, r) else kv)).find?
      (fun kv => kv.1 = source) = some (source, r) := by
  induction l with
  | nil => simp at h
  | cons kv t ih =>
    by_cases hk : kv.1 = source
    · rw [List.map_cons, if_pos hk, List.find?_cons_of_pos _ (by simp)]
    · have h2 : source ∈ t.map Prod.fst := by
        rw [List.map_cons] at h
        rcases List.mem_cons.mp h with h1 | h1
        · exact absurd h1.symm hk
        · exact h1
      rw [List.map_cons, if_neg hk, List.find?_cons_of_neg _ (by simp [hk])]
      exact ih h2

theorem find?_append_not_mem (l : List (String × PriceReport)) (source : String)
    (r : PriceReport) (h : source ∉ l.map Prod.fst) :
    (l ++ [(source, r)]).find? (fun kv => kv.1 = source) = some (source, r) := by
  induction l with
  | nil => simp
  | cons kv t ih =>
    have hk : ¬ kv.1 = source := by
      intro he
      apply h
      rw [List.map_cons, he]
      exact List.mem_cons_self _ _
    have h2 : source ∉ t.map Prod.fst := by
      intro hm
      apply h
      rw [List.map_cons]
      exact List.mem_cons_of_mem _ hm
    rw [List.cons_append, List.find?_cons_of_neg _ (by simp [hk])]
    exact ih h2

/-- Inserting a report for `source` makes it the report `lookupReport` finds
for `source`, whether or not an entry was already present. -/
theorem lookupReport_insertReport (prices : List (String × PriceReport))
    (source : String) (r : PriceReport) :
    lookupReport (insertReport prices source r) source = some r := by
  unfold insertReport lookupReport
  by_cases h : source ∈ prices.map Prod.fst
  · rw [if_pos ((any_key_eq prices source).mpr h), find?_map_replace prices source r h]
    rfl
  · rw [if_neg (fun hc => h ((any_key_eq prices source).mp hc)),
      find?_append_not_mem prices source r h]
    rfl

theorem mem_insertReport (prices : List (String × PriceReport)) (source : String)
    (r : PriceReport) (kv2 : String × PriceReport)
    (h : kv2 ∈ insertReport prices source r) :
    kv2 = (source, r) ∨ kv2 ∈ prices := by
  unfold insertReport at h
  split at h
  · rcases List.mem_map.mp h with ⟨a, ha, hae⟩
    by_cases hk : a.1 = source
    · left
      rw [← hae, if_pos hk]
    · right
      rw [← hae, if_neg hk]
      exact ha
  · rcases List.mem_append.mp h with h1 | h1
    · right
      exact h1
    · left
      simpa using h1

theorem Wf_insertReport (prices : List (String × PriceReport)) (source : String)
    (r : PriceReport) (hr : r.source = source)
    (h1 : (prices.map Prod.fst).Nodup) (h2 : ∀ kv ∈ prices, kv.2.source = kv.1) :
    ((insertReport prices source r).map Prod.fst).Nodup ∧
      ∀ kv ∈ insertReport prices source r, kv.2.source = kv.1 := by
  constructor
  · by_cases h : source ∈ prices.map Prod.fst
    · rw [insertReport_keys_mem prices source r h]
      exact h1
    · rw [insertReport_keys_not_mem prices source r h]
      simp [List.nodup_append, h1, h]
  · intro kv hkv
    rcases mem_insertReport prices source r kv hkv with h | h
    · rw [h]
      exact hr
    · exact h2 kv h

theorem report_price_prices (st : PriceOracle) (c : String) (ts : Nat) (s : String)
    (p : Nat) :
    (report_price st c ts s p).prices =
      insertReport st.prices s
        { source := s, price_usd := p, timestamp := ts / 1000000, reporter := c } := rfl

theorem Wf_report_price (st : PriceOracle) (c : String) (ts : Nat) (s : String)
    (p : Nat) (h : Wf st) : Wf (report_price st c ts s p) := by
  obtain ⟨h1, h2⟩ := h
  exact Wf_insertReport st.prices s _ rfl h1 h2

theorem Wf_step (st : PriceOracle) (op : Op) (h : Wf st) : Wf (step st op) := by
  cases op with
  | opInit c v =>
    unfold step init
    by_cases hc : c = st.owner <;> simp [hc] <;> exact h
  | opReport c ts s p => exact Wf_report_price st c ts s p h
  | opSetMin c v =>
    unfold step set_min_sources
    by_cases hc : c = st.owner <;> simp [hc] <;> exact h
  | opClear c =>
    unfold step clear_prices
    by_cases hc : c = st.owner <;> simp [hc]
    · exact ⟨List.nodup_nil, by simp⟩
    · exact h

theorem Wf_exec (ops : List Op) : ∀ st : PriceOracle, Wf st → Wf (exec st ops) := by
  induction ops with
  | nil => intro st h; exact h
  | cons op t ih =>
    intro st h
    exact ih (step st op) (Wf_step st op h)

theorem Wf_defaultOracle (o : String) : Wf (defaultOracle o) :=
  ⟨List.nodup_nil, by simp [defaultOracle]⟩

theorem keys_report_price_toFinset (st : PriceOracle) (c : String) (ts : Nat)
    (s : String) (p : Nat) :
    ((report_price st c ts s p).prices.map Prod.fst).toFinset =
      insert s (st.prices.map Prod.fst).toFinset := by
  rw [report_price_prices]
  by_cases h : s ∈ st.prices.map Prod.fst
  · rw [insertReport_keys_mem _ _ _ h]
    exact (Finset.insert_eq_self.mpr (List.mem_toFinset.mpr h)).symm
  · rw [insertReport_keys_not_mem _ _ _ h]
    simp [List.toFinset_append, Finset.union_comm, Finset.insert_eq]

theorem nodup_keys_report_price (st : PriceOracle) (c : String) (ts : Nat)
    (s : String) (p : Nat) (h : (st.prices.map Prod.fst).Nodup) :
    ((report_price st c ts s p).prices.map Prod.fst).Nodup := by
  rw [report_price_prices]
  by_cases hm : s ∈ st.prices.map Prod.fst
  · rw [insertReport_keys_mem _ _ _ hm]
    exact h
  · rw [insertReport_keys_not_mem _ _ _ hm]
    simp [List.nodup_append, h, hm]

theorem runReports_cons (st : PriceOracle) (c : ReportCall) (t : List ReportCall) :
    runReports st (c :: t) =
      runReports (report_price st c.caller c.block_timestamp c.source c.price_usd)
        t := rfl

theorem nodup_keys_runReports (calls : List ReportCall) :
    ∀ st : PriceOracle, (st.prices.map Prod.fst).Nodup →
      ((runReports st calls).prices.map Prod.fst).Nodup := by
  induction calls with
  | nil => intro st h; exact h
  | cons c t ih =>
    intro st h
    rw [runReports_cons]
    exact ih _ (nodup_keys_report_price st _ _ _ _ h)

theorem keys_runReports_toFinset (calls : List ReportCall) :
    ∀ st : PriceOracle,
      ((runReports st calls).prices.map Prod.fst).toFinset =
        (st.prices.map Prod.fst).toFinset ∪ (calls.map ReportCall.source).toFinset := by
  induction calls with
  | nil =>
    intro st
    simp [runReports]
  | cons c t ih =>
    intro st
    rw [runReports_cons, ih, keys_report_price_toFinset, List.map_cons,
      List.toFinset_cons]
    ext x
    simp


/-- The transition the code applies to `last_update` on each call: a report
overwrites it by the report timestamp, a successful clear resets it to 0,
everything else keeps it. -/
def luF (owner : String) (acc : Nat) : Op → Nat
  | .opReport _ ts _ _ => ts / 1000000
  | .opClear c => if c = owner then 0 else acc
  | .opInit _ _ => acc
  | .opSetMin _ _ => acc

/-- Spec-side description of `last_update` (from the spec invariant, to compare
with the code): the timestamp of the most recent successful `report_price`
call, reset to the sentinel 0 by a successful `clear_prices`, initially 0. -/
def specLastUpdate (owner : String) (ops : List Op) : Nat :=
  ops.foldl (luF owner) 0

theorem step_owner (st : PriceOracle) (op : Op) : (step st op).owner = st.owner := by
  cases op with
  | opInit c v =>
    unfold step init
    by_cases hc : c = st.owner <;> simp [hc]
  | opReport c ts s p => rfl
  | opSetMin c v =>
    unfold step set_min_sources
    by_cases hc : c = st.owner <;> simp [hc]
  | opClear c =>
    unfold step clear_prices
    by_cases hc : c = st.owner <;> simp [hc]

theorem step_last_update (st : PriceOracle) (op : Op) :
    (step st op).last_update = luF st.owner st.last_update op := by
  cases op with
  | opInit c v =>
    unfold step init luF
    by_cases hc : c = st.owner <;> simp [hc]
  | opReport c ts s p => rfl
  | opSetMin c v =>
    unfold step set_min_sources luF
    by_cases hc : c = st.owner <;> simp [hc]
  | opClear c =>
    unfold step clear_prices luF
    by_cases hc : c = st.owner <;> simp [hc]

theorem exec_cons (st : PriceOracle) (op : Op) (t : List Op) :
    exec st (op :: t) = exec (step st op) t := rfl

theorem exec_owner (ops : List Op) :
    ∀ st : PriceOracle, (exec st ops).owner = st.owner := by
  induction ops with
  | nil => intro st; rfl
  | cons op t ih =>
    intro st
    rw [exec_cons, ih, step_owner]

theorem exec_last_update (ops : List Op) :
    ∀ st : PriceOracle,
      (exec st ops).last_update = ops.foldl (luF st.owner) st.last_update := by
  induction ops with
  | nil => intro st; rfl
  | cons op t ih =>
    intro st
    rw [exec_cons, ih, step_owner, step_last_update, List.foldl_cons]

theorem step_clear_owner (st : PriceOracle) :
    step st (.opClear st.owner) = { st with prices := [], last_update := 0 } := by
  show (match clear_prices st st.owner with
    | .ok st2 => st2
    | .error _ => st) = { st with prices := [], last_update := 0 }
  unfold clear_prices
  rw [if_pos rfl]

theorem source_count_runReports_aux (o : String) (calls : List ReportCall) :
    get_source_count (runReports (defaultOracle o) calls) =
      (calls.map ReportCall.source).toFinset.card % 256 := by
  have hn : ((runReports (defaultOracle o) calls).prices.map Prod.fst).Nodup :=
    nodup_keys_runReports calls (defaultOracle o) (by simp [defaultOracle])
  have hf2 : ((runReports (defaultOracle o) calls).prices.map Prod.fst).toFinset =
      (calls.map ReportCall.source).toFinset := by
    rw [keys_runReports_toFinset calls (defaultOracle o)]
    simp [defaultOracle]
  have hlen : ((runReports (defaultOracle o) calls).prices.map Prod.fst).length =
      (calls.map ReportCall.source).toFinset.card := by
    rw [← List.toFinset_card_of_nodup hn, hf2]
  unfold get_source_count
  rw [← List.length_map (runReports (defaultOracle o) calls).prices Prod.fst, hlen]

/-! ### Concrete states and inputs used by witnesses and counterexamples -/

/-- The three-source scenario of the spec: coingecko 5.00, binance 5.20,
coinmarketcap 5.40 (micro-dollars), reported into a fresh contract. -/
def exampleState3 : PriceOracle :=
  runReports (defaultOracle "owner")
    [{ caller := "a", block_timestamp := 0, source := "coingecko",
       price_usd := 5000000 },
     { caller := "b", block_timestamp := 0, source := "binance",
       price_usd := 5200000 },
     { caller := "c", block_timestamp := 0, source := "coinmarketcap",
       price_usd := 5400000 }]

/-- A reachable state with `min_sources = 0` and an empty map: the owner of a
fresh contract calls `init(0)`. -/
def zeroQuorumState : PriceOracle :=
  step (defaultOracle "owner") (.opInit "owner" 0)

/-- 256 pairwise-distinct source strings. -/
def manySources : List String :=
  (List.range 256).map (fun i => String.mk (List.replicate i (Char.ofNat 97)))

/-- One `report_price` call per string of `manySources`. -/
def manyCalls : List ReportCall :=
  manySources.map
    (fun s => { caller := "a", block_timestamp := 0, source := s, price_usd := 1 })

theorem manySources_nodup : manySources.Nodup := by
  refine List.Nodup.map ?_ (List.nodup_range 256)
  intro i j h
  have h2 : List.replicate i (Char.ofNat 97) = List.replicate j (Char.ofNat 97) :=
    congrArg String.data h
  have h3 := congrArg List.length h2
  simpa using h3

theorem manyCalls_map_source : manyCalls.map ReportCall.source = manySources := by
  unfold manyCalls
  rw [List.map_map]
  exact List.map_id manySources

theorem manyCalls_distinct_count :
    (manyCalls.map ReportCall.source).toFinset.card = 256 := by
  rw [manyCalls_map_source, List.toFinset_card_of_nodup manySources_nodup]
  simp [manySources]

/-! ### The claims -/

/-- **C1** (amended): for every oracle state whose stored source count is at
least `min_sources`, is nonzero, and whose price total is below `2^128`,
`get_price` returns exactly the truncating unsigned-integer mean
`floor(sum / count)`: it equals `sum / count` in natural-number division, with
the two floor inequalities spelled out. -/
theorem C1_truncating_mean (st : PriceOracle)
    (hq : st.min_sources ≤ st.prices.length) (hn : 0 < st.prices.length)
    (hs : sumPrices st < U128_MOD) :
    get_price st = .ok (sumPrices st / st.prices.length) ∧
    sumPrices st / st.prices.length * st.prices.length ≤ sumPrices st ∧
    sumPrices st <
      (sumPrices st / st.prices.length + 1) * st.prices.length := by
  refine ⟨?_, Nat.div_mul_le_self _ _, ?_⟩
  · rw [get_price_eq, if_neg (Nat.not_lt.mpr hq), if_neg (Nat.not_le.mpr hs),
      if_neg (Nat.pos_iff_ne_zero.mp hn)]
  · have h := Nat.lt_div_mul_add (a := sumPrices st) hn
    have heq : (sumPrices st / st.prices.length + 1) * st.prices.length =
        sumPrices st / st.prices.length * st.prices.length + st.prices.length := by
      ring
    rw [heq]
    exact h

/-- **C1** witness: the spec scenario with three sources averaging to
5200000 micro-dollars. -/
theorem C1_truncating_mean_witness :
    exampleState3.min_sources ≤ exampleState3.prices.length ∧
    0 < exampleState3.prices.length ∧
    sumPrices exampleState3 < U128_MOD ∧
    (get_price exampleState3 =
        .ok (sumPrices exampleState3 / exampleState3.prices.length) ∧
      sumPrices exampleState3 / exampleState3.prices.length *
          exampleState3.prices.length ≤ sumPrices exampleState3 ∧
      sumPrices exampleState3 <
        (sumPrices exampleState3 / exampleState3.prices.length + 1) *
          exampleState3.prices.length) :=
  ⟨by decide, by decide, by decide,
    C1_truncating_mean exampleState3 (by decide) (by decide) (by decide)⟩

/-- **C1** counterexample: in the reachable state where the owner set
`min_sources = 0` and no reports are stored, the source count (0) is at least
`min_sources` (0), yet `get_price` does not return the mean of the stored
prices: it aborts with a division-by-zero panic. -/
theorem C1_counterexample :
    zeroQuorumState.min_sources ≤ zeroQuorumState.prices.length ∧
    get_price zeroQuorumState = .error .divisionByZero := by decide

/-- **C2** (amended): `get_price` fails with `InsufficientSources` iff the
stored source count is strictly below `min_sources`, and every
`InsufficientSources` failure carries `required = min_sources` and
`actual = count`; with quorum met it returns a value except when the count is
zero (division-by-zero panic, see C10) or the price total reaches `2^128`
(overflow abort, see C5).  The embedded `get_price` is read-only by type, as
in the code (`&self`). -/
theorem C2_insufficient_sources_iff (st : PriceOracle) :
    (get_price st =
        .error (.insufficientSources st.min_sources st.prices.length) ↔
      st.prices.length < st.min_sources) ∧
    (∀ r a, get_price st = .error (.insufficientSources r a) →
      r = st.min_sources ∧ a = st.prices.length) ∧
    (st.min_sources ≤ st.prices.length → 0 < st.prices.length →
      sumPrices st < U128_MOD →
      get_price st = .ok (sumPrices st / st.prices.length)) := by
  rw [get_price_eq]
  refine ⟨?_, ?_, ?_⟩
  · constructor
    · intro h
      by_contra hlt
      rw [if_neg hlt] at h
      split at h
      · simp at h
      · split at h
        · simp at h
        · simp at h
    · intro h
      rw [if_pos h]
  · intro r a h
    by_cases h1 : st.prices.length < st.min_sources
    · rw [if_pos h1] at h
      simp at h
      exact ⟨h.1.symm, h.2.symm⟩
    · rw [if_neg h1] at h
      split at h
      · simp at h
      · split at h
        · simp at h
        · simp at h
  · intro hq hn hs
    rw [if_neg (Nat.not_lt.mpr hq), if_neg (Nat.not_le.mpr hs),
      if_neg (Nat.pos_iff_ne_zero.mp hn)]

/-- **C2** counterexample: with `min_sources = 0` and an empty map, the source
count is not below `min_sources`, so no `InsufficientSources` is raised — but
the call does not succeed with a value either: it aborts with a
division-by-zero panic. -/
theorem C2_counterexample :
    ¬ zeroQuorumState.prices.length < zeroQuorumState.min_sources ∧
    get_price zeroQuorumState = .error .divisionByZero := by decide

/-- **C3**: the code computes `block_timestamp / 1_000_000`, i.e. milliseconds,
not `block_timestamp / 1_000_000_000` (whole seconds) as the spec states: for
the host clock value 2000000000 ns the stored report timestamp and
`last_update` are 2000, while seconds-since-epoch is 2. -/
theorem C3_timestamp_is_milliseconds :
    (report_price (defaultOracle "o") "alice" 2000000000 "coingecko" 5).last_update
        = 2000 ∧
    lookupReport
        (report_price (defaultOracle "o") "alice" 2000000000 "coingecko" 5).prices
        "coingecko" =
      some { source := "coingecko", price_usd := 5, timestamp := 2000,
             reporter := "alice" } ∧
    2000000000 / 1000000000 = 2 := by decide

/-- **C4** (amended): from the initial state, `get_source_count` returns the
number of distinct source strings passed across the whole sequence of
`report_price` calls reduced modulo 256 (the Rust `usize -> u8` cast); it is
exact whenever at most 255 distinct sources were used. -/
theorem C4_source_count (o : String) (calls : List ReportCall) :
    get_source_count (runReports (defaultOracle o) calls) =
      (calls.map ReportCall.source).toFinset.card % 256 :=
  source_count_runReports_aux o calls

/-- **C4** counterexample: after reporting under 256 pairwise-distinct source
strings, `get_source_count` returns 0, not 256. -/
theorem C4_counterexample :
    get_source_count (runReports (defaultOracle "o") manyCalls) = 0 ∧
    (manyCalls.map ReportCall.source).toFinset.card = 256 := by
  refine ⟨?_, manyCalls_distinct_count⟩
  rw [source_count_runReports_aux, manyCalls_distinct_count]

/-- **C5**: any value `get_price` returns is the exact mathematical floor of
`sum / count` — the checked 128-bit summation never wraps silently: a returned
value certifies the total fits in `u128` and satisfies both floor bounds.
(Overflow aborts the call; the summation width is `u128`.) -/
theorem C5_no_silent_wrap (st : PriceOracle) (v : Nat)
    (hok : get_price st = .ok v) :
    v = sumPrices st / st.prices.length ∧
    sumPrices st < U128_MOD ∧
    v * st.prices.length ≤ sumPrices st ∧
    sumPrices st < (v + 1) * st.prices.length := by
  rw [get_price_eq] at hok
  by_cases h1 : st.prices.length < st.min_sources
  · rw [if_pos h1] at hok
    exact absurd hok (by simp)
  · rw [if_neg h1] at hok
    by_cases h2 : U128_MOD ≤ sumPrices st
    · rw [if_pos h2] at hok
      exact absurd hok (by simp)
    · rw [if_neg h2] at hok
      by_cases h3 : st.prices.length = 0
      · rw [if_pos h3] at hok
        exact absurd hok (by simp)
      · rw [if_neg h3] at hok
        have hv : v = sumPrices st / st.prices.length := by
          simpa using hok.symm
        have hn : 0 < st.prices.length := Nat.pos_of_ne_zero h3
        refine ⟨hv, Nat.lt_of_not_le h2, ?_, ?_⟩
        · rw [hv]
          exact Nat.div_mul_le_self _ _
        · rw [hv]
          have h := Nat.lt_div_mul_add (a := sumPrices st) hn
          have heq : (sumPrices st / st.prices.length + 1) * st.prices.length =
              sumPrices st / st.prices.length * st.prices.length +
                st.prices.length := by
            ring
          rw [heq]
          exact h

/-- **C5** witness: the three-source scenario, whose returned mean 5200000 is
certified exact. -/
theorem C5_no_silent_wrap_witness :
    get_price exampleState3 = .ok 5200000 ∧
    (5200000 = sumPrices exampleState3 / exampleState3.prices.length ∧
      sumPrices exampleState3 < U128_MOD ∧
      5200000 * exampleState3.prices.length ≤ sumPrices exampleState3 ∧
      sumPrices exampleState3 < (5200000 + 1) * exampleState3.prices.length) :=
  ⟨by decide, C5_no_silent_wrap exampleState3 5200000 (by decide)⟩

/-- **C6**: `init`, `set_min_sources` and `clear_prices` fail with
`Unauthorized` for every caller other than the stored owner and leave the
state exactly unchanged (the `step` rollback equations); for the owner, `init`
and `set_min_sources` overwrite `min_sources` with the given value and
`clear_prices` empties the map and resets `last_update` to 0. -/
theorem C6_owner_gated (st : PriceOracle) (intruder : String) (v : Nat)
    (h : intruder ≠ st.owner) :
    init st intruder v = .error .unauthorized ∧
    set_min_sources st intruder v = .error .unauthorized ∧
    clear_prices st intruder = .error .unauthorized ∧
    step st (.opInit intruder v) = st ∧
    step st (.opSetMin intruder v) = st ∧
    step st (.opClear intruder) = st ∧
    init st st.owner v = .ok { st with min_sources := v } ∧
    set_min_sources st st.owner v = .ok { st with min_sources := v } ∧
    clear_prices st st.owner = .ok { st with prices := [], last_update := 0 } := by
  unfold step init set_min_sources clear_prices
  simp [h]

/-- **C6** witness: a fresh contract owned by "owner", intruder "eve",
requested threshold 7. -/
theorem C6_owner_gated_witness :
    init (defaultOracle "owner") "eve" 7 = .error .unauthorized ∧
    set_min_sources (defaultOracle "owner") "eve" 7 = .error .unauthorized ∧
    clear_prices (defaultOracle "owner") "eve" = .error .unauthorized ∧
    step (defaultOracle "owner") (.opInit "eve" 7) = defaultOracle "owner" ∧
    step (defaultOracle "owner") (.opSetMin "eve" 7) = defaultOracle "owner" ∧
    step (defaultOracle "owner") (.opClear "eve") = defaultOracle "owner" ∧
    init (defaultOracle "owner") "owner" 7 =
      .ok { defaultOracle "owner" with min_sources := 7 } ∧
    set_min_sources (defaultOracle "owner") "owner" 7 =
      .ok { defaultOracle "owner" with min_sources := 7 } ∧
    clear_prices (defaultOracle "owner") "owner" =
      .ok { defaultOracle "owner" with prices := [], last_update := 0 } :=
  C6_owner_gated (defaultOracle "owner") "eve" 7 (by decide)

/-- **C7**: in every reachable state the map holds at most one entry per
source (well-formedness, preserved by every operation from the initial
state), `get_price_details` never lists two reports with the same source, and
re-reporting an already-present source keeps the entry count and fully
replaces the stored report with the new one. -/
theorem C7_unique_per_source (o : String) (ops : List Op) (c : String)
    (ts : Nat) (s : String) (p : Nat)
    (hs : s ∈ (exec (defaultOracle o) ops).prices.map Prod.fst) :
    Wf (exec (defaultOracle o) ops) ∧
    ((get_price_details (exec (defaultOracle o) ops)).map
        PriceReport.source).Nodup ∧
    (report_price (exec (defaultOracle o) ops) c ts s p).prices.length =
      (exec (defaultOracle o) ops).prices.length ∧
    lookupReport (report_price (exec (defaultOracle o) ops) c ts s p).prices s =
      some { source := s, price_usd := p, timestamp := ts / 1000000,
             reporter := c } := by
  have hwf : Wf (exec (defaultOracle o) ops) :=
    Wf_exec ops _ (Wf_defaultOracle o)
  obtain ⟨h1, h2⟩ := hwf
  refine ⟨⟨h1, h2⟩, ?_, ?_, ?_⟩
  · have hmap : (get_price_details (exec (defaultOracle o) ops)).map
        PriceReport.source = (exec (defaultOracle o) ops).prices.map Prod.fst := by
      unfold get_price_details
      rw [List.map_map]
      exact List.map_congr_left (fun kv hkv => h2 kv hkv)
    rw [hmap]
    exact h1
  · rw [report_price_prices]
    have hkeys := insertReport_keys_mem (exec (defaultOracle o) ops).prices s
      { source := s, price_usd := p, timestamp := ts / 1000000, reporter := c } hs
    have hlen := congrArg List.length hkeys
    simpa using hlen
  · rw [report_price_prices]
    exact lookupReport_insertReport _ _ _

/-- The trace used by the C7 witness: one report for source "gecko". -/
def w7Ops : List Op := [.opReport "a" 1000000 "gecko" 100]

/-- **C7** witness: after one report for "gecko", re-reporting "gecko" with a
new price keeps the entry count at 1 and replaces the stored report. -/
theorem C7_unique_per_source_witness :
    "gecko" ∈ (exec (defaultOracle "o") w7Ops).prices.map Prod.fst ∧
    (Wf (exec (defaultOracle "o") w7Ops) ∧
      ((get_price_details (exec (defaultOracle "o") w7Ops)).map
          PriceReport.source).Nodup ∧
      (report_price (exec (defaultOracle "o") w7Ops) "b" 5000000 "gecko"
            200).prices.length =
        (exec (defaultOracle "o") w7Ops).prices.length ∧
      lookupReport
          (report_price (exec (defaultOracle "o") w7Ops) "b" 5000000 "gecko"
            200).prices "gecko" =
        some { source := "gecko", price_usd := 200, timestamp := 5,
               reporter := "b" }) :=
  ⟨by decide,
    C7_unique_per_source "o" w7Ops "b" 5000000 "gecko" 200 (by decide)⟩

/-- **C8**: in every reachable state, `last_update` equals the timestamp
computed by the most recent successful `report_price` call, or 0 when none
has happened or a successful `clear_prices` came later (`specLastUpdate`
transcribes that spec invariant); in particular a successful `clear_prices`
leaves `get_source_count` at 0 and `get_last_update` at the sentinel 0. -/
theorem C8_last_update_tracks_reports (o : String) (ops : List Op) :
    get_last_update (exec (defaultOracle o) ops) = specLastUpdate o ops ∧
    get_source_count (step (exec (defaultOracle o) ops) (.opClear o)) = 0 ∧
    get_last_update (step (exec (defaultOracle o) ops) (.opClear o)) = 0 := by
  have ho : (exec (defaultOracle o) ops).owner = o :=
    exec_owner ops (defaultOracle o)
  have hstep : step (exec (defaultOracle o) ops) (.opClear o) =
      { owner := o, prices := [], last_update := 0,
        min_sources := (exec (defaultOracle o) ops).min_sources } := by
    have h2 := step_clear_owner (exec (defaultOracle o) ops)
    rw [ho] at h2
    exact h2
  refine ⟨?_, ?_, ?_⟩
  · unfold get_last_update specLastUpdate
    rw [exec_last_update]
    rfl
  · rw [hstep]
    rfl
  · rw [hstep]
    rfl

/-- **C9**: `is_valid` is true iff the stored source count reaches
`min_sources`, and it is false exactly when `get_price` on the same state
fails with the `InsufficientSources` condition — it mirrors the quorum
precondition of `get_price` without invoking it.  The embedded `is_valid` is
read-only by type, as in the code (`&self`). -/
theorem C9_is_valid_mirrors_quorum (st : PriceOracle) :
    (is_valid st = true ↔ st.min_sources ≤ st.prices.length) ∧
    (is_valid st = false ↔
      get_price st =
        .error (.insufficientSources st.min_sources st.prices.length)) := by
  constructor
  · simp [is_valid]
  · rw [get_price_eq]
    by_cases h : st.prices.length < st.min_sources
    · simp [is_valid, Nat.not_le, h]
    · rw [if_neg h]
      have hval : is_valid st = true := by
        simp [is_valid, Nat.not_lt.mp h]
      have hRHS :
          (if U128_MOD ≤ sumPrices st then
              (Except.error OracleErr.overflow : Except OracleErr Nat)
            else if st.prices.length = 0 then .error .divisionByZero
            else .ok (sumPrices st / st.prices.length)) ≠
          .error (.insufficientSources st.min_sources st.prices.length) := by
        split_ifs <;> simp
      constructor
      · intro hf
        rw [hval] at hf
        exact absurd hf (by simp)
      · intro hf
        exact absurd hf hRHS

/-- **C10**: in the reachable state with `min_sources = 0` and an empty map,
the quorum check of `get_price` passes (0 is not below 0) and the division
`sum / count` divides by zero, so the call aborts with an arithmetic panic
rather than returning a value or raising `InsufficientSources`: the division
is not guarded against a zero source count. -/
theorem C10_unguarded_division :
    get_price zeroQuorumState = .error .divisionByZero ∧
    zeroQuorumState.min_sources = 0 ∧
    zeroQuorumState.prices.length = 0 := by decide

example : get_min_sources (defaultOracle "o") = 3 := by decide
example : get_source_count (defaultOracle "o") = 0 := by decide
example : is_valid (defaultOracle "o") = false := by decide

example :
    get_price
      (runReports (defaultOracle "o")
        [⟨"a", 0, "coingecko", 5000000⟩, ⟨"b", 0, "binance", 5200000⟩,
         ⟨"c", 0, "coinmarketcap", 5400000⟩]) = .ok 5200000 := by decide

end PriceOracleModel
